import Mathlib

/-!
Verification development for the multi-persona retrieval orchestrator of the
livekit-voice-agent-demo repository, together with its React transcription
front end.

The backend core (persona registry, topic detector, FAISS collection store,
retriever, conversation history, orchestrator) is modelled from the
repository's specification; the transcription handler is embedded from the
frontend source (`RoomEvent.TranscriptionReceived` and
`RoomEvent.DataReceived` handlers).
-/

/-! ## Generic list helpers: stable insertion sort and JS-Map-style assoc lists -/

/-- Insert an element into a sorted list, keeping it before the first element
`b` with `le a b`. -/
def insertSorted (le : α → α → Bool) (a : α) : List α → List α
  | [] => [a]
  | b :: bs => if le a b then a :: b :: bs else b :: insertSorted le a bs

/-- Stable insertion sort (ascending with respect to `le`). -/
def insertionSort (le : α → α → Bool) : List α → List α
  | [] => []
  | a :: as => insertSorted le a (insertionSort le as)

theorem mem_insertSorted (le : α → α → Bool) (a x : α) (l : List α) :
    x ∈ insertSorted le a l ↔ x = a ∨ x ∈ l := by
  induction l with
  | nil => simp [insertSorted]
  | cons b bs ih =>
    simp only [insertSorted]
    by_cases h : le a b = true
    · simp [h]
    · simp [h, ih]
      tauto

theorem mem_insertionSort (le : α → α → Bool) (x : α) (l : List α) :
    x ∈ insertionSort le l ↔ x ∈ l := by
  induction l with
  | nil => simp [insertionSort]
  | cons a as ih => simp [insertionSort, mem_insertSorted, ih]

/-- JS `Map.prototype.get`: first binding of the key, if any. -/
def alistGet [DecidableEq κ] (k : κ) (m : List (κ × β)) : Option β :=
  (m.find? (fun kv => decide (kv.1 = k))).map (fun kv => kv.2)

/-- JS `Map.prototype.set`: update in place when the key is present,
otherwise append (preserving insertion order). -/
def alistSet [DecidableEq κ] (k : κ) (v : β) (m : List (κ × β)) : List (κ × β) :=
  if m.any (fun kv => decide (kv.1 = k)) then
    m.map (fun kv => if kv.1 = k then (k, v) else kv)
  else
    m ++ [(k, v)]

theorem alistGet_set_self [DecidableEq κ] (k : κ) (v : β) (m : List (κ × β)) :
    alistGet k (alistSet k v m) = some v := by
  unfold alistSet
  by_cases h : m.any (fun kv => decide (kv.1 = k)) = true
  · simp only [h, if_true]
    induction m with
    | nil => simp at h
    | cons kv kvs ih =>
      by_cases hk : kv.1 = k
      · simp [alistGet, List.find?, hk]
      · have h' : kvs.any (fun kv => decide (kv.1 = k)) = true := by
          simp only [List.any_cons] at h
          rcases Bool.or_eq_true_iff.mp h with h1 | h1
          · exact absurd (of_decide_eq_true h1) hk
          · exact h1
        simp only [List.map_cons, if_neg hk]
        simp only [alistGet, List.find?] at ih ⊢
        rw [show (decide (kv.1 = k)) = false from decide_eq_false hk]
        exact ih h'
  · simp only [h, if_false]
    induction m with
    | nil => simp [alistGet, List.find?]
    | cons kv kvs ih =>
      have hk : ¬ kv.1 = k := by
        intro hEq
        apply h
        simp [List.any_cons, hEq]
      have h' : ¬ kvs.any (fun kv => decide (kv.1 = k)) = true := by
        intro hA
        apply h
        simp [List.any_cons, hA]
      simp only [List.cons_append, alistGet, List.find?] at ih ⊢
      rw [show (decide (kv.1 = k)) = false from decide_eq_false hk]
      exact ih h'

theorem mem_alistSet [DecidableEq κ] (k : κ) (v : β) (m : List (κ × β)) (x : κ × β) :
    x ∈ alistSet k v m → x = (k, v) ∨ x ∈ m := by
  unfold alistSet
  by_cases h : m.any (fun kv => decide (kv.1 = k)) = true
  · simp only [h, if_true]
    intro hx
    rcases List.mem_map.mp hx with ⟨kv, hkv, hEq⟩
    by_cases hk : kv.1 = k
    · left
      rw [← hEq]
      simp [hk]
    · right
      rw [← hEq]
      simpa [hk] using hkv
  · simp only [h, if_false]
    intro hx
    rcases List.mem_append.mp hx with hx | hx
    · right; exact hx
    · left; simpa using hx

/-! ## Data model (modelled from the spec, §3)

`Topic` is the closed enumeration of the three bundled topics; `Persona` and
`Chunk` are the immutable records of the spec's data model. -/

/-- Modelled from the spec: the closed topic enumeration (interruption,
latency, streaming) of the reference configuration. -/
inductive Topic
  | interruption
  | latency
  | streaming
deriving DecidableEq

/-- All members of the closed `Topic` enumeration, in configuration order. -/
def allTopics : List Topic := [Topic.interruption, Topic.latency, Topic.streaming]

/-- Modelled from the spec: immutable persona record with topic/keyword
bindings, loaded once from configuration. -/
structure Persona where
  id : String
  displayName : String
  topic : Topic
  personality : String
  backstory : String
  keywords : List String
deriving DecidableEq

/-- Modelled from the spec: a unit of retrievable text whose `topic` metadata
is set at ingestion time and is the sole basis for retrieval isolation. -/
structure Chunk where
  id : Nat
  topic : Topic
  text : String
  embedding : List Int
  sourceDocumentId : String
  offset : Nat
deriving DecidableEq

/-! ## Persona Registry (modelled from the spec, §4.1) -/

/-- Modelled from the spec: `listPersonas` — the registry's stable order. -/
def listPersonas (reg : List Persona) : List Persona := reg

/-- Modelled from the spec: `getPersona(id)`, `none` meaning `NotFound`
(a fatal configuration error). -/
def getPersona (reg : List Persona) (pid : String) : Option Persona :=
  reg.find? (fun p => decide (p.id = pid))

/-- Modelled from the spec: `personaForTopic(topic)` with the deterministic
tie-break — first persona in registry order bound to the topic. -/
def personaForTopic (reg : List Persona) (t : Topic) : Option Persona :=
  reg.find? (fun p => decide (p.topic = t))

theorem personaForTopic_topic {reg : List Persona} {t : Topic} {p : Persona}
    (h : personaForTopic reg t = some p) : p.topic = t := by
  unfold personaForTopic at h
  have hp := List.find?_some h
  exact of_decide_eq_true hp

theorem personaForTopic_mem {reg : List Persona} {t : Topic} {p : Persona}
    (h : personaForTopic reg t = some p) : p ∈ reg := by
  unfold personaForTopic at h
  exact List.mem_of_find?_eq_some h

theorem getPersona_id {reg : List Persona} {pid : String} {p : Persona}
    (h : getPersona reg pid = some p) : p.id = pid := by
  unfold getPersona at h
  have hp := List.find?_some h
  exact of_decide_eq_true hp

theorem getPersona_mem {reg : List Persona} {pid : String} {p : Persona}
    (h : getPersona reg pid = some p) : p ∈ reg := by
  unfold getPersona at h
  exact List.mem_of_find?_eq_some h

/-! ## Collection Store (modelled from the spec, §4.3)

A single FAISS index holding chunks of every topic (the source's
`SingleFAISSMultiCollection`), plus the set of topics whose collections have
been built.  A query constructs the search over the chunks passing the topic
metadata filter, scores them by L2 distance, orders ascending with ties
broken by chunk id, and takes the first `k`. -/

inductive StoreError
  | topicNotFound
deriving DecidableEq

/-- Modelled from the spec: the process-wide store — built collections plus
the single chunk index with per-chunk topic metadata. -/
structure CollectionStore where
  builtTopics : List Topic
  chunks : List Chunk

/-- Squared L2 distance between two embedding vectors. -/
def l2dist (a b : List Int) : Nat :=
  ((List.zipWith (fun x y => (x - y) * (x - y)) a b).foldl (· + ·) 0).toNat

/-- Ascending by distance, ties broken by chunk id ascending. -/
def chunkLE (a b : Chunk × Nat) : Bool :=
  decide (a.2 < b.2) || (decide (a.2 = b.2) && decide (a.1.id ≤ b.1.id))

/-- Modelled from the spec: `query(topic, queryText, k)`.  The search request
itself carries the topic filter (`filter` before scoring and `take`), so no
post-hoc filtering of global results occurs; a missing collection fails with
`TopicNotFound`, while an empty collection returns an empty sequence. -/
def CollectionStore.query (s : CollectionStore) (emb : String → List Int)
    (t : Topic) (q : String) (k : Nat) : Except StoreError (List (Chunk × Nat)) :=
  if t ∈ s.builtTopics then
    Except.ok
      ((insertionSort chunkLE
        ((s.chunks.filter (fun c => decide (c.topic = t))).map
          (fun c => (c, l2dist c.embedding (emb q))))).take k)
  else
    Except.error StoreError.topicNotFound

/-- The store with every chunk of other topics removed (collection structure
untouched); used to express that a query is insensitive to foreign chunks. -/
def CollectionStore.restrict (s : CollectionStore) (t : Topic) : CollectionStore :=
  { builtTopics := s.builtTopics,
    chunks := s.chunks.filter (fun c => decide (c.topic = t)) }

/-- C1 — For every topic `t`, query `q` and bound `k`, a successful
`CollectionStore.query` returns only chunks whose `topic` field equals `t`;
moreover the result is identical on the store restricted to topic `t`, so the
isolation comes from the topic filter inside the search request and not from
post-hoc filtering of global results. -/
theorem query_topic_isolation (s : CollectionStore) (emb : String → List Int)
    (t : Topic) (q : String) (k : Nat) (res : List (Chunk × Nat))
    (hq : s.query emb t q k = Except.ok res) :
    (∀ c score, (c, score) ∈ res → c.topic = t) ∧
    s.query emb t q k = (s.restrict t).query emb t q k := by
  constructor
  · intro c score hmem
    unfold CollectionStore.query at hq
    by_cases hb : t ∈ s.builtTopics
    · rw [if_pos hb] at hq
      have hres := (Except.ok.injEq _ _).mp hq
      rw [← hres] at hmem
      have h1 := List.mem_of_mem_take hmem
      have h2 := (mem_insertionSort chunkLE _ _).mp h1
      rcases List.mem_map.mp h2 with ⟨c', hc', hEq⟩
      have hcEq : c' = c := congrArg Prod.fst hEq
      rw [hcEq] at hc'
      exact of_decide_eq_true (List.mem_filter.mp hc').2
    · rw [if_neg hb] at hq
      exact absurd hq (by simp)
  · unfold CollectionStore.query CollectionStore.restrict
    by_cases hb : t ∈ s.builtTopics
    · simp only [hb, if_true, if_pos]
      rw [List.filter_filter]
      simp
    · simp only [hb, if_false]

/-- A demonstration store holding one latency chunk and one streaming chunk,
with both collections built. -/
def demoStore : CollectionStore :=
  { builtTopics := [Topic.latency, Topic.streaming],
    chunks :=
      [ { id := 1, topic := Topic.latency, text := "latency chunk",
          embedding := [0], sourceDocumentId := "doc", offset := 0 },
        { id := 2, topic := Topic.streaming, text := "streaming chunk",
          embedding := [5], sourceDocumentId := "doc", offset := 1 } ] }

/-- A demonstration embedding function. -/
def demoEmb : String → List Int := fun s => [Int.ofNat s.length]

theorem query_topic_isolation_witness :
    (∃ res, demoStore.query demoEmb Topic.latency "q" 3 = Except.ok res) ∧
    (∀ c score,
      (c, score) ∈ [({ id := 1, topic := Topic.latency, text := "latency chunk",
                       embedding := [0], sourceDocumentId := "doc", offset := 0 : Chunk }, 1)] →
      c.topic = Topic.latency) := by
  refine ⟨⟨_, rfl⟩, ?_⟩
  exact (query_topic_isolation demoStore demoEmb Topic.latency "q" 3 _ (by rfl)).1

/-! ## Topic Detector (modelled from the spec, §4.2) -/

/-- Punctuation stripped by normalization. -/
def isPunct (c : Char) : Bool :=
  ['.', ',', '!', '?', ';', ':', '\'', '"', '-', '(', ')'].contains c

/-- Modelled from the spec: normalize text — lowercase, strip punctuation. -/
def normalizeText (s : String) : String :=
  String.mk ((s.data.map Char.toLower).filter (fun c => !isPunct c))

/-- All suffixes of a list, longest first. -/
def tailsList : List α → List (List α)
  | [] => [[]]
  | a :: as => (a :: as) :: tailsList as

/-- Substring test: `needle` occurs contiguously inside `hay`. -/
def strContains (hay needle : String) : Bool :=
  (tailsList hay.data).any (fun t => needle.data.isPrefixOf t)

/-- The configuration name of a topic, as used in explicit handoff requests. -/
def topicName : Topic → String
  | Topic.interruption => "interruption"
  | Topic.latency => "latency"
  | Topic.streaming => "streaming"

/-- Modelled from the spec: the utterance contains a keyword of some persona
bound to topic `t` (presence of keyword substrings after normalization). -/
def topicMatches (reg : List Persona) (text : String) (t : Topic) : Bool :=
  reg.any (fun p =>
    decide (p.topic = t) &&
    p.keywords.any (fun kw => strContains (normalizeText text) (normalizeText kw)))

/-- Topics whose keywords occur in the utterance, in configuration order. -/
def matchedTopics (reg : List Persona) (text : String) : List Topic :=
  allTopics.filter (topicMatches reg text)

/-- Cue phrases of an explicit handoff request. -/
def handoffCues : List String :=
  ["talk to", "speak to", "speak with", "hand me over to", "introduce me to",
   "connect me to"]

/-- Modelled from the spec: the explicit handoff phrase pattern — a direct
request to speak to a named persona or topic; when present it overrides
keyword scoring. -/
def explicitHandoffTopic (reg : List Persona) (text : String) : Option Topic :=
  if handoffCues.any (fun cue => strContains (normalizeText text) (normalizeText cue)) then
    (reg.find? (fun p =>
        strContains (normalizeText text) (normalizeText p.displayName) ||
        strContains (normalizeText text) (topicName p.topic))).map
      (fun p => p.topic)
  else
    none

/-- Modelled from the spec: `detect(text) -> Topic | NoSignal` (`none` is
`NoSignal`).  An explicit handoff request wins; otherwise the utterance must
match keywords of exactly one topic, and zero or multiple matches yield
`NoSignal`. -/
def detect (reg : List Persona) (text : String) : Option Topic :=
  match explicitHandoffTopic reg text with
  | some t => some t
  | none =>
    match matchedTopics reg text with
    | [t] => some t
    | _ => none

theorem mem_matchedTopics (reg : List Persona) (text : String) (t : Topic) :
    t ∈ matchedTopics reg text ↔ topicMatches reg text t = true := by
  unfold matchedTopics
  rw [List.mem_filter]
  constructor
  · exact fun h => h.2
  · intro h
    refine ⟨?_, h⟩
    cases t <;> simp [allTopics]

theorem matchedTopics_single (reg : List Persona) (text : String) (t : Topic) :
    matchedTopics reg text = [t] ↔
      (topicMatches reg text t = true ∧
       ∀ u, topicMatches reg text u = true → u = t) := by
  constructor
  · intro h
    constructor
    · have : t ∈ matchedTopics reg text := by rw [h]; exact List.mem_singleton_self t
      exact (mem_matchedTopics reg text t).mp this
    · intro u hu
      have : u ∈ matchedTopics reg text := (mem_matchedTopics reg text u).mpr hu
      rw [h] at this
      exact List.mem_singleton.mp this
  · rintro ⟨hf, huniq⟩
    cases t with
    | interruption =>
      have hL : topicMatches reg text Topic.latency = false := by
        cases hL : topicMatches reg text Topic.latency
        · rfl
        · exact Topic.noConfusion (huniq Topic.latency hL)
      have hS : topicMatches reg text Topic.streaming = false := by
        cases hS : topicMatches reg text Topic.streaming
        · rfl
        · exact Topic.noConfusion (huniq Topic.streaming hS)
      simp [matchedTopics, allTopics, List.filter, hf, hL, hS]
    | latency =>
      have hI : topicMatches reg text Topic.interruption = false := by
        cases hI : topicMatches reg text Topic.interruption
        · rfl
        · exact Topic.noConfusion (huniq Topic.interruption hI)
      have hS : topicMatches reg text Topic.streaming = false := by
        cases hS : topicMatches reg text Topic.streaming
        · rfl
        · exact Topic.noConfusion (huniq Topic.streaming hS)
      simp [matchedTopics, allTopics, List.filter, hf, hI, hS]
    | streaming =>
      have hI : topicMatches reg text Topic.interruption = false := by
        cases hI : topicMatches reg text Topic.interruption
        · rfl
        · exact Topic.noConfusion (huniq Topic.interruption hI)
      have hL : topicMatches reg text Topic.latency = false := by
        cases hL : topicMatches reg text Topic.latency
        · rfl
        · exact Topic.noConfusion (huniq Topic.latency hL)
      simp [matchedTopics, allTopics, List.filter, hf, hI, hL]

theorem detect_eq_single {reg : List Persona} {text : String} {t : Topic}
    (hexp : explicitHandoffTopic reg text = none) :
    detect reg text = some t ↔ matchedTopics reg text = [t] := by
  rcases hm : matchedTopics reg text with _ | ⟨a, _ | ⟨b, l⟩⟩ <;>
    simp [detect, hexp, hm]

/-- C5 — `detect` is total by construction; an explicit handoff request
returns its topic unconditionally, and otherwise `detect` returns a topic
exactly when the utterance matches keywords of exactly one topic; zero
matches or ties yield `NoSignal`. -/
theorem detect_characterization (reg : List Persona) (text : String) :
    (∀ t, explicitHandoffTopic reg text = some t → detect reg text = some t) ∧
    (explicitHandoffTopic reg text = none →
      (∀ t, detect reg text = some t ↔
        (topicMatches reg text t = true ∧
         ∀ u, topicMatches reg text u = true → u = t)) ∧
      ((∀ u, topicMatches reg text u = false) → detect reg text = none) ∧
      (∀ t u, t ≠ u → topicMatches reg text t = true →
        topicMatches reg text u = true → detect reg text = none)) := by
  constructor
  · intro t h
    simp [detect, h]
  · intro hexp
    refine ⟨?_, ?_, ?_⟩
    · intro t
      rw [detect_eq_single hexp]
      exact matchedTopics_single reg text t
    · intro h
      have hm : matchedTopics reg text = [] := by
        simp [matchedTopics, allTopics, List.filter,
          h Topic.interruption, h Topic.latency, h Topic.streaming]
      simp [detect, hexp, hm]
    · intro t u hne ht hu
      rcases hm : matchedTopics reg text with _ | ⟨a, _ | ⟨b, l⟩⟩
      · exact absurd ((mem_matchedTopics reg text t).mpr ht) (by simp [hm])
      · have h1 : t = a := by
          have := (mem_matchedTopics reg text t).mpr ht
          rw [hm] at this
          exact List.mem_singleton.mp this
        have h2 : u = a := by
          have := (mem_matchedTopics reg text u).mpr hu
          rw [hm] at this
          exact List.mem_singleton.mp this
        exact absurd (h1.trans h2.symm) hne
      · simp [detect, hexp, hm]

/-- Interruption-management persona of the reference configuration. -/
def skye : Persona :=
  { id := "skye", displayName := "Skye Morales", topic := Topic.interruption,
    personality := "Comedian", backstory := "Interruption management expert",
    keywords := ["interrupt", "interruption", "talking over", "barge"] }

/-- Latency-optimization persona of the reference configuration. -/
def noah : Persona :=
  { id := "noah", displayName := "Noah Reed", topic := Topic.latency,
    personality := "Professional", backstory := "Latency optimization expert",
    keywords := ["latency", "delay", "lag"] }

/-- Streaming-technology persona of the reference configuration. -/
def avery : Persona :=
  { id := "avery", displayName := "Avery Kim", topic := Topic.streaming,
    personality := "Aloof", backstory := "Streaming technology expert",
    keywords := ["streaming", "stream", "buffer"] }

/-- The three personas of the reference configuration (frontend participant
cards), with modelled keyword sets. -/
def demoRegistry : List Persona := [skye, noah, avery]

theorem detect_characterization_witness :
    detect demoRegistry "what about latency" = some Topic.latency :=
  (((detect_characterization demoRegistry "what about latency").2
      (by decide)).1 Topic.latency).mpr
    ⟨by decide, by
      intro u h
      cases u
      · exact absurd h (by decide)
      · rfl
      · exact absurd h (by decide)⟩

/-! ## Retriever (modelled from the spec, §4.4) -/

/-- The fixed top-k retrieval constant (default 3). -/
def topK : Nat := 3

/-- Modelled from the spec: `retrieveFor(persona, queryText)` — always
queries the store with `persona.topic` (the enforcement point of retrieval
isolation) and absorbs `TopicNotFound` into an empty context. -/
def retrieveFor (store : CollectionStore) (emb : String → List Int)
    (p : Persona) (q : String) : List String :=
  match store.query emb p.topic q topK with
  | Except.ok res => res.map (fun cs => cs.1.text)
  | Except.error _ => []

theorem query_mem (s : CollectionStore) (emb : String → List Int)
    (t : Topic) (q : String) (k : Nat) (res : List (Chunk × Nat))
    (hq : s.query emb t q k = Except.ok res) :
    ∀ cs ∈ res, cs.1 ∈ s.chunks ∧ cs.1.topic = t := by
  intro cs hmem
  unfold CollectionStore.query at hq
  by_cases hb : t ∈ s.builtTopics
  · rw [if_pos hb] at hq
    have hres := (Except.ok.injEq _ _).mp hq
    rw [← hres] at hmem
    have h1 := List.mem_of_mem_take hmem
    have h2 := (mem_insertionSort chunkLE _ _).mp h1
    rcases List.mem_map.mp h2 with ⟨c', hc', hEq⟩
    have hf := List.mem_filter.mp hc'
    rw [← hEq]
    exact ⟨hf.1, of_decide_eq_true hf.2⟩
  · rw [if_neg hb] at hq
    exact absurd hq (by simp)

theorem retrieveFor_mem (store : CollectionStore) (emb : String → List Int)
    (p : Persona) (q : String) :
    ∀ x ∈ retrieveFor store emb p q,
      ∃ c, c ∈ store.chunks ∧ c.topic = p.topic ∧ c.text = x := by
  intro x hx
  unfold retrieveFor at hx
  cases hq : store.query emb p.topic q topK with
  | error e => rw [hq] at hx; simp at hx
  | ok res =>
    rw [hq] at hx
    rcases List.mem_map.mp hx with ⟨cs, hcs, hEq⟩
    rcases query_mem store emb p.topic q topK res hq cs hcs with ⟨h1, h2⟩
    exact ⟨cs.1, h1, h2, hEq⟩

/-! ## Conversation History and Session (modelled from the spec, §§3, 4.5) -/

/-- Modelled from the spec: one logged turn, recording the active persona at
the time of the turn. -/
structure ConversationTurn where
  speaker : String
  text : String
  timestamp : Nat
  activePersonaId : String
deriving DecidableEq

/-- Modelled from the spec: `append(turn)` — append-only, preserves
insertion order. -/
def appendTurn (h : List ConversationTurn) (turn : ConversationTurn) :
    List ConversationTurn :=
  h ++ [turn]

/-- Modelled from the spec: `recent(n)` — the last `n` turns in order. -/
def recentTurns (h : List ConversationTurn) (n : Nat) : List ConversationTurn :=
  (h.reverse.take n).reverse

/-- Modelled from the spec: session state — exactly one active persona id at
any instant, plus the append-only history. -/
structure Session where
  id : String
  activePersonaId : String
  history : List ConversationTurn
  startedAt : Nat
deriving DecidableEq

/-- Modelled from the spec: `startSession` binds the default persona — the
registry order's first entry — before any user text is processed; an empty
registry is a fatal configuration error (`none`). -/
def startSession (reg : List Persona) (sid : String) (now : Nat) : Option Session :=
  match reg.head? with
  | some p => some { id := sid, activePersonaId := p.id, history := [], startedAt := now }
  | none => none

/-! ## Orchestrator (modelled from the spec, §4.6) -/

/-- Modelled from the spec: the structured per-turn result returned to the
surrounding voice/tool layer. -/
structure TurnResult where
  personaName : String
  topic : Topic
  personality : String
  backstory : String
  context : List String
  handoff : Bool
  handoffMessage : Option String
deriving DecidableEq

/-- Modelled from the spec: the transition message parameterized by the
outgoing persona, the incoming persona and the last few turns of history. -/
def transitionMessage (outgoing incoming : Persona)
    (recent : List ConversationTurn) : String :=
  outgoing.displayName ++ " hands the conversation to " ++ incoming.displayName ++
    " after " ++ toString recent.length ++ " recent turns."

/-- Modelled from the spec (§4.6 steps 1-3): the target persona of a turn.
`NoSignal`, the current persona's own topic, and a detected topic with no
registered persona all fall back to the current persona (no handoff). -/
def targetPersona (reg : List Persona) (current : Persona)
    (detected : Option Topic) : Persona :=
  match detected with
  | none => current
  | some t =>
    if t = current.topic then current
    else
      match personaForTopic reg t with
      | some p => p
      | none => current

/-- Modelled from the spec (§4.6 steps 4-7): the structured result of a turn
— persona by value, retrieved context, handoff flag observed at call start,
and the transition message only on a handoff. -/
def turnResult (store : CollectionStore) (emb : String → List Int)
    (current target : Persona) (history : List ConversationTurn)
    (q : String) : TurnResult :=
  { personaName := target.displayName,
    topic := target.topic,
    personality := target.personality,
    backstory := target.backstory,
    context := retrieveFor store emb target q,
    handoff := if target = current then false else true,
    handoffMessage :=
      if target = current then none
      else some (transitionMessage current target (recentTurns history 3)) }

/-- Modelled from the spec (§4.6): one turn of the orchestrator state
machine; `none` only on a fatal configuration error (the session's active
persona id is missing from the registry). -/
def processTurn (reg : List Persona) (store : CollectionStore)
    (emb : String → List Int) (s : Session) (q : String) (now : Nat) :
    Option (Session × TurnResult) :=
  (getPersona reg s.activePersonaId).map (fun current =>
    ( { s with
        activePersonaId := (targetPersona reg current (detect reg q)).id,
        history := appendTurn s.history
          ⟨"user", q, now, (targetPersona reg current (detect reg q)).id⟩ },
      turnResult store emb current (targetPersona reg current (detect reg q))
        s.history q ))

theorem targetPersona_sameTopic (reg : List Persona) (c : Persona) {t : Topic}
    (h : t = c.topic) : targetPersona reg c (some t) = c := by
  simp [targetPersona, h]

theorem targetPersona_noPersona (reg : List Persona) (c : Persona) {t : Topic}
    (h1 : ¬ t = c.topic) (h2 : personaForTopic reg t = none) :
    targetPersona reg c (some t) = c := by
  simp [targetPersona, h1, h2]

theorem targetPersona_found (reg : List Persona) (c : Persona) {t : Topic}
    {p : Persona} (h1 : ¬ t = c.topic) (h2 : personaForTopic reg t = some p) :
    targetPersona reg c (some t) = p := by
  simp [targetPersona, h1, h2]

theorem targetPersona_cases (reg : List Persona) (c : Persona) (d : Option Topic) :
    targetPersona reg c d = c ∨
    ∃ t p, d = some t ∧ ¬ t = c.topic ∧ personaForTopic reg t = some p ∧
      targetPersona reg c d = p := by
  cases d with
  | none => left; rfl
  | some t =>
    by_cases h1 : t = c.topic
    · left
      exact targetPersona_sameTopic reg c h1
    · cases h2 : personaForTopic reg t with
      | none =>
        left
        exact targetPersona_noPersona reg c h1 h2
      | some p =>
        right
        exact ⟨t, p, rfl, h1, h2, targetPersona_found reg c h1 h2⟩

theorem processTurn_eq {reg : List Persona} {store : CollectionStore}
    {emb : String → List Int} {s : Session} {q : String} {now : Nat}
    {s' : Session} {r : TurnResult}
    (h : processTurn reg store emb s q now = some (s', r)) :
    ∃ current, getPersona reg s.activePersonaId = some current ∧
      s' = { s with
             activePersonaId := (targetPersona reg current (detect reg q)).id,
             history := appendTurn s.history
               ⟨"user", q, now, (targetPersona reg current (detect reg q)).id⟩ } ∧
      r = turnResult store emb current
            (targetPersona reg current (detect reg q)) s.history q := by
  unfold processTurn at h
  cases hcur : getPersona reg s.activePersonaId with
  | none => rw [hcur] at h; exact absurd h (by simp)
  | some current =>
    rw [hcur] at h
    rw [Option.map_some'] at h
    have h2 := Option.some.inj h
    exact ⟨current, rfl, (congrArg Prod.fst h2).symm, (congrArg Prod.snd h2).symm⟩

theorem query_length (s : CollectionStore) (emb : String → List Int)
    (t : Topic) (q : String) (k : Nat) (res : List (Chunk × Nat))
    (hq : s.query emb t q k = Except.ok res) : res.length ≤ k := by
  unfold CollectionStore.query at hq
  by_cases hb : t ∈ s.builtTopics
  · rw [if_pos hb] at hq
    have hres := (Except.ok.injEq _ _).mp hq
    rw [← hres, List.length_take]
    exact Nat.min_le_left _ _
  · rw [if_neg hb] at hq
    exact absurd hq (by simp)

/-- C2 — After `startSession` the session's `activePersonaId` is always
defined (it names a registry persona, and the very first turn starts from the
registry order's first entry, selected before any user text is processed),
and it changes across a turn only when the detector returned a
non-ambiguous topic different from the current persona's topic for which a
persona is registered. -/
theorem activePersona_defined_and_stable
    (reg : List Persona) (store : CollectionStore) (emb : String → List Int)
    (s : Session) (q : String) (now : Nat) (s' : Session) (r : TurnResult)
    (hstep : processTurn reg store emb s q now = some (s', r)) :
    (∀ sid t0 sess, startSession reg sid t0 = some sess →
      ∃ p, reg.head? = some p ∧ sess.activePersonaId = p.id ∧ sess.history = []) ∧
    (∃ p, p ∈ reg ∧ s'.activePersonaId = p.id) ∧
    (s'.activePersonaId ≠ s.activePersonaId →
      ∃ t p current, detect reg q = some t ∧
        getPersona reg s.activePersonaId = some current ∧ ¬ t = current.topic ∧
        personaForTopic reg t = some p ∧ s'.activePersonaId = p.id) := by
  obtain ⟨current, hcur, hs', hr⟩ := processTurn_eq hstep
  refine ⟨?_, ?_, ?_⟩
  · intro sid t0 sess hstart
    unfold startSession at hstart
    cases hh : reg.head? with
    | none => rw [hh] at hstart; exact absurd hstart (by simp)
    | some p =>
      rw [hh] at hstart
      have hsess := Option.some.inj hstart
      exact ⟨p, rfl, by rw [← hsess], by rw [← hsess]⟩
  · rcases targetPersona_cases reg current (detect reg q) with htc | ⟨t, p, hd, hnt, hp, htp⟩
    · refine ⟨current, getPersona_mem hcur, ?_⟩
      rw [hs']
      show (targetPersona reg current (detect reg q)).id = current.id
      rw [htc]
    · refine ⟨p, personaForTopic_mem hp, ?_⟩
      rw [hs']
      show (targetPersona reg current (detect reg q)).id = p.id
      rw [htp]
  · intro hne
    rcases targetPersona_cases reg current (detect reg q) with htc | ⟨t, p, hd, hnt, hp, htp⟩
    · exfalso
      apply hne
      rw [hs']
      show (targetPersona reg current (detect reg q)).id = s.activePersonaId
      rw [htc, getPersona_id hcur]
    · refine ⟨t, p, current, hd, hcur, hnt, hp, ?_⟩
      rw [hs']
      show (targetPersona reg current (detect reg q)).id = p.id
      rw [htp]

/-- The demonstration session bound to the default persona. -/
def demoSession : Session :=
  { id := "s", activePersonaId := "skye", history := [], startedAt := 0 }

/-- Session state after the first demonstration turn (handoff to Noah). -/
def demoSession1 : Session :=
  { id := "s", activePersonaId := "noah",
    history := [⟨"user", "what about latency", 1, "noah"⟩], startedAt := 0 }

/-- Result of the first demonstration turn. -/
def demoResult1 : TurnResult :=
  { personaName := "Noah Reed", topic := Topic.latency,
    personality := "Professional", backstory := "Latency optimization expert",
    context := ["latency chunk"], handoff := true,
    handoffMessage :=
      some "Skye Morales hands the conversation to Noah Reed after 0 recent turns." }

theorem activePersona_defined_and_stable_witness :
    ∃ p, p ∈ demoRegistry ∧ demoSession1.activePersonaId = p.id :=
  (activePersona_defined_and_stable demoRegistry demoStore demoEmb demoSession
    "what about latency" 1 demoSession1 demoResult1 (by rfl)).2.1

/-- C3 — When the detector yields `NoSignal`, the current persona's own
topic, or a topic with no registered persona, the turn performs no handoff:
it succeeds, the result's persona is the current persona, the handoff flag is
false with no transition message, the session's active persona is unchanged,
and the retrieved context is drawn from the current persona's topic only. -/
theorem no_handoff_cases
    (reg : List Persona) (store : CollectionStore) (emb : String → List Int)
    (s : Session) (q : String) (now : Nat) (current : Persona)
    (hcur : getPersona reg s.activePersonaId = some current)
    (hcase : detect reg q = none ∨ detect reg q = some current.topic ∨
      ∃ t, detect reg q = some t ∧ personaForTopic reg t = none) :
    ∃ s' r, processTurn reg store emb s q now = some (s', r) ∧
      r.handoff = false ∧ r.handoffMessage = none ∧
      r.personaName = current.displayName ∧ r.topic = current.topic ∧
      r.personality = current.personality ∧ r.backstory = current.backstory ∧
      s'.activePersonaId = s.activePersonaId ∧
      r.context = retrieveFor store emb current q ∧
      ∀ x ∈ r.context, ∃ c, c ∈ store.chunks ∧ c.topic = current.topic ∧ c.text = x := by
  have htc : targetPersona reg current (detect reg q) = current := by
    rcases hcase with h | h | ⟨t, h, hp⟩
    · rw [h]
      rfl
    · rw [h]
      exact targetPersona_sameTopic reg current rfl
    · rw [h]
      by_cases h1 : t = current.topic
      · exact targetPersona_sameTopic reg current h1
      · exact targetPersona_noPersona reg current h1 hp
  refine ⟨{ s with
            activePersonaId := (targetPersona reg current (detect reg q)).id,
            history := appendTurn s.history
              ⟨"user", q, now, (targetPersona reg current (detect reg q)).id⟩ },
          turnResult store emb current (targetPersona reg current (detect reg q))
            s.history q,
          ?_, ?_, ?_, ?_, ?_, ?_, ?_, ?_, ?_, ?_⟩
  · unfold processTurn
    rw [hcur, Option.map_some']
  · simp [turnResult, htc]
  · simp [turnResult, htc]
  · simp [turnResult, htc]
  · simp [turnResult, htc]
  · simp [turnResult, htc]
  · simp [turnResult, htc]
  · show (targetPersona reg current (detect reg q)).id = s.activePersonaId
    rw [htc, getPersona_id hcur]
  · simp [turnResult, htc]
  · intro x hx
    have hcctx : (turnResult store emb current
        (targetPersona reg current (detect reg q)) s.history q).context =
        retrieveFor store emb current q := by
      simp [turnResult, htc]
    rw [hcctx] at hx
    exact retrieveFor_mem store emb current q x hx

theorem no_handoff_cases_witness :
    getPersona demoRegistry demoSession.activePersonaId = some skye ∧
    detect demoRegistry "tell me more" = none ∧
    ∃ s' r, processTurn demoRegistry demoStore demoEmb demoSession
      "tell me more" 1 = some (s', r) ∧ r.handoff = false ∧
      s'.activePersonaId = demoSession.activePersonaId := by
  refine ⟨by rfl, by rfl, ?_⟩
  obtain ⟨s', r, h1, h2, _, _, _, _, _, h8, _⟩ :=
    no_handoff_cases demoRegistry demoStore demoEmb demoSession "tell me more" 1
      skye (by rfl) (Or.inl (by rfl))
  exact ⟨s', r, h1, h2, h8⟩

/-- C4 — `retrieveFor` returns at most `topK` (3) texts; a `TopicNotFound`
failure of the store, an unbuilt collection, and an empty collection all
degrade to the empty context instead of an error, and the turn still
succeeds with the persona fields of the result populated. -/
theorem retrieveFor_bounds_and_degradation
    (store : CollectionStore) (emb : String → List Int) (p : Persona) (q : String) :
    (retrieveFor store emb p q).length ≤ topK ∧
    (store.query emb p.topic q topK = Except.error StoreError.topicNotFound →
      retrieveFor store emb p q = []) ∧
    (¬ p.topic ∈ store.builtTopics → retrieveFor store emb p q = []) ∧
    (store.chunks.filter (fun c => decide (c.topic = p.topic)) = [] →
      retrieveFor store emb p q = []) ∧
    (∀ reg s now current, getPersona reg s.activePersonaId = some current →
      ∃ s' r, processTurn reg store emb s q now = some (s', r) ∧
        r.personaName = (targetPersona reg current (detect reg q)).displayName ∧
        r.topic = (targetPersona reg current (detect reg q)).topic ∧
        r.personality = (targetPersona reg current (detect reg q)).personality ∧
        r.backstory = (targetPersona reg current (detect reg q)).backstory) := by
  refine ⟨?_, ?_, ?_, ?_, ?_⟩
  · unfold retrieveFor
    cases hq : store.query emb p.topic q topK with
    | error e => simp
    | ok res =>
      rw [List.length_map]
      exact query_length store emb p.topic q topK res hq
  · intro h
    unfold retrieveFor
    rw [h]
  · intro h
    unfold retrieveFor CollectionStore.query
    rw [if_neg h]
  · intro h
    unfold retrieveFor CollectionStore.query
    by_cases hb : p.topic ∈ store.builtTopics
    · rw [if_pos hb, h]
      simp [insertionSort]
    · rw [if_neg hb]
  · intro reg s now current hcur
    refine ⟨{ s with
              activePersonaId := (targetPersona reg current (detect reg q)).id,
              history := appendTurn s.history
                ⟨"user", q, now, (targetPersona reg current (detect reg q)).id⟩ },
            turnResult store emb current (targetPersona reg current (detect reg q))
              s.history q,
            ?_, ?_, ?_, ?_, ?_⟩
    · unfold processTurn
      rw [hcur, Option.map_some']
    · simp [turnResult]
    · simp [turnResult]
    · simp [turnResult]
    · simp [turnResult]

theorem retrieveFor_bounds_and_degradation_witness :
    (¬ Topic.interruption ∈ demoStore.builtTopics) ∧
    retrieveFor demoStore demoEmb skye "hello" = [] ∧
    (retrieveFor demoStore demoEmb skye "hello").length ≤ topK := by
  have h := retrieveFor_bounds_and_degradation demoStore demoEmb skye "hello"
  exact ⟨by decide, h.2.2.1 (by decide), h.1⟩

/-- C6 — Handoff is idempotent: if two consecutive turns both detect the same
unambiguous topic, the second turn reports `handoff = false` and emits no
transition message.  The registry is assumed well-formed (each persona is
found under its own id). -/
theorem handoff_idempotent
    (reg : List Persona) (store : CollectionStore) (emb : String → List Int)
    (hwf : ∀ p ∈ reg, getPersona reg p.id = some p)
    (s : Session) (q1 q2 : String) (t : Topic) (now1 now2 : Nat)
    (h1 : detect reg q1 = some t) (h2 : detect reg q2 = some t)
    (s1 : Session) (r1 : TurnResult)
    (hstep1 : processTurn reg store emb s q1 now1 = some (s1, r1))
    (s2 : Session) (r2 : TurnResult)
    (hstep2 : processTurn reg store emb s1 q2 now2 = some (s2, r2)) :
    r2.handoff = false ∧ r2.handoffMessage = none := by
  obtain ⟨current, hcur, hs1, hr1⟩ := processTurn_eq hstep1
  obtain ⟨current2, hcur2, hs2, hr2⟩ := processTurn_eq hstep2
  have hact1 : s1.activePersonaId = (targetPersona reg current (detect reg q1)).id := by
    rw [hs1]
  rw [h1] at hact1
  by_cases hteq : t = current.topic
  · have htg1 : targetPersona reg current (some t) = current :=
      targetPersona_sameTopic reg current hteq
    have hsame : s1.activePersonaId = s.activePersonaId := by
      rw [hact1, htg1, getPersona_id hcur]
    have hc2 : current2 = current := by
      rw [hsame, hcur] at hcur2
      exact (Option.some.inj hcur2).symm
    have htg2 : targetPersona reg current2 (detect reg q2) = current2 := by
      rw [h2, hc2]
      exact targetPersona_sameTopic reg current hteq
    rw [hr2]
    constructor <;> simp [turnResult, htg2]
  · cases hp : personaForTopic reg t with
    | some p =>
      have htg1 : targetPersona reg current (some t) = p :=
        targetPersona_found reg current hteq hp
      have hact1' : s1.activePersonaId = p.id := by rw [hact1, htg1]
      have hptop : p.topic = t := personaForTopic_topic hp
      have hpmem : p ∈ reg := personaForTopic_mem hp
      have hc2 : current2 = p := by
        rw [hact1', hwf p hpmem] at hcur2
        exact (Option.some.inj hcur2).symm
      have htg2 : targetPersona reg current2 (detect reg q2) = current2 := by
        rw [h2, hc2]
        exact targetPersona_sameTopic reg p hptop.symm
      rw [hr2]
      constructor <;> simp [turnResult, htg2]
    | none =>
      have htg1 : targetPersona reg current (some t) = current :=
        targetPersona_noPersona reg current hteq hp
      have hsame : s1.activePersonaId = s.activePersonaId := by
        rw [hact1, htg1, getPersona_id hcur]
      have hc2 : current2 = current := by
        rw [hsame, hcur] at hcur2
        exact (Option.some.inj hcur2).symm
      have htg2 : targetPersona reg current2 (detect reg q2) = current2 := by
        rw [h2, hc2]
        exact targetPersona_noPersona reg current hteq hp
      rw [hr2]
      constructor <;> simp [turnResult, htg2]

/-- Session state after the second demonstration turn (same topic again). -/
def demoSession2 : Session :=
  { id := "s", activePersonaId := "noah",
    history := [⟨"user", "what about latency", 1, "noah"⟩,
                ⟨"user", "what about latency", 2, "noah"⟩], startedAt := 0 }

/-- Result of the second demonstration turn: no redundant handoff. -/
def demoResult2 : TurnResult :=
  { personaName := "Noah Reed", topic := Topic.latency,
    personality := "Professional", backstory := "Latency optimization expert",
    context := ["latency chunk"], handoff := false, handoffMessage := none }

theorem handoff_idempotent_witness :
    demoResult2.handoff = false ∧ demoResult2.handoffMessage = none :=
  handoff_idempotent demoRegistry demoStore demoEmb (by decide) demoSession
    "what about latency" "what about latency" Topic.latency 1 2 (by rfl) (by rfl)
    demoSession1 demoResult1 (by rfl) demoSession2 demoResult2 (by rfl)

/-- C7 — Whenever a turn result has `handoff = true`, the result carries the
new persona's identity, backstory, topic and personality (the persona-change
notification signalled outward), and the session now points at that persona;
the orchestrator itself only returns this value and performs no relay. -/
theorem handoff_notification_fields
    (reg : List Persona) (store : CollectionStore) (emb : String → List Int)
    (s : Session) (q : String) (now : Nat) (s' : Session) (r : TurnResult)
    (hstep : processTurn reg store emb s q now = some (s', r))
    (hh : r.handoff = true) :
    ∃ p, p ∈ reg ∧ s'.activePersonaId = p.id ∧
      r.personaName = p.displayName ∧ r.topic = p.topic ∧
      r.personality = p.personality ∧ r.backstory = p.backstory := by
  obtain ⟨current, hcur, hs', hr⟩ := processTurn_eq hstep
  rcases targetPersona_cases reg current (detect reg q) with htc | ⟨t, p, hd, hnt, hp, htp⟩
  · exfalso
    rw [hr] at hh
    simp [turnResult, htc] at hh
  · refine ⟨p, personaForTopic_mem hp, ?_, ?_, ?_, ?_, ?_⟩
    · rw [hs']
      show (targetPersona reg current (detect reg q)).id = p.id
      rw [htp]
    · rw [hr]
      simp [turnResult, htp]
    · rw [hr]
      simp [turnResult, htp]
    · rw [hr]
      simp [turnResult, htp]
    · rw [hr]
      simp [turnResult, htp]

theorem handoff_notification_fields_witness :
    ∃ p, p ∈ demoRegistry ∧ demoSession1.activePersonaId = p.id ∧
      demoResult1.personaName = p.displayName ∧ demoResult1.topic = p.topic ∧
      demoResult1.personality = p.personality ∧
      demoResult1.backstory = p.backstory :=
  handoff_notification_fields demoRegistry demoStore demoEmb demoSession
    "what about latency" 1 demoSession1 demoResult1 (by rfl) (by rfl)

/-! ## Frontend transcription handler (embedded from the source)

The `RoomEvent.TranscriptionReceived` and `RoomEvent.DataReceived` handlers
of the chat frontend, with JS `Map`s as insertion-ordered association lists
and JS string truthiness made explicit. -/

/-- JS `String.prototype.trim` on a character list: strip leading and
trailing whitespace. -/
def trimChars (l : List Char) : List Char :=
  ((l.dropWhile Char.isWhitespace).reverse.dropWhile Char.isWhitespace).reverse

/-- JS `String.prototype.trim`. -/
def trimStr (s : String) : String := String.mk (trimChars s.data)

theorem head_dropWhile_not (p : α → Bool) :
    ∀ (l : List α) (a : α), (l.dropWhile p).head? = some a → p a = false := by
  intro l
  induction l with
  | nil =>
    intro a h
    simp [List.dropWhile] at h
  | cons b bs ih =>
    intro a h
    rw [List.dropWhile_cons] at h
    by_cases hb : p b = true
    · rw [if_pos hb] at h
      exact ih a h
    · rw [if_neg hb] at h
      have hba : b = a := by simpa using h
      rw [← hba]
      exact Bool.eq_false_iff.mpr hb

theorem dropWhile_eq_self_of_head (p : α → Bool) (l : List α)
    (h : ∀ a, l.head? = some a → p a = false) : l.dropWhile p = l := by
  cases l with
  | nil => rfl
  | cons a as =>
    have ha := h a rfl
    rw [List.dropWhile_cons, ha]
    simp

theorem trimChars_idem (l : List Char) : trimChars (trimChars l) = trimChars l := by
  unfold trimChars
  generalize hl1 : l.dropWhile Char.isWhitespace = l1
  generalize hm : l1.reverse.dropWhile Char.isWhitespace = m
  have hl1eq : l1 = m.reverse ++ (l1.reverse.takeWhile Char.isWhitespace).reverse := by
    have h := List.takeWhile_append_dropWhile (p := Char.isWhitespace) (l := l1.reverse)
    rw [hm] at h
    calc l1 = l1.reverse.reverse := (List.reverse_reverse l1).symm
      _ = (l1.reverse.takeWhile Char.isWhitespace ++ m).reverse := by rw [h]
      _ = m.reverse ++ (l1.reverse.takeWhile Char.isWhitespace).reverse := by
          rw [List.reverse_append]
  have hstep1 : m.reverse.dropWhile Char.isWhitespace = m.reverse := by
    apply dropWhile_eq_self_of_head
    intro a ha
    cases hmr : m.reverse with
    | nil =>
      rw [hmr] at ha
      simp at ha
    | cons c cs =>
      rw [hmr] at ha
      have hac : c = a := by simpa using ha
      have hl1head : l1.head? = some c := by
        rw [hl1eq, hmr]
        rfl
      have hc : Char.isWhitespace c = false := by
        apply head_dropWhile_not Char.isWhitespace l c
        rw [hl1]
        exact hl1head
      rw [← hac]
      exact hc
  have hstep2 : m.dropWhile Char.isWhitespace = m := by
    apply dropWhile_eq_self_of_head
    intro a ha
    apply head_dropWhile_not Char.isWhitespace l1.reverse a
    rw [hm]
    exact ha
  rw [hstep1, List.reverse_reverse, hstep2]

theorem trimStr_idem (s : String) : trimStr (trimStr s) = trimStr s := by
  unfold trimStr
  rw [show (String.mk (trimChars s.data)).data = trimChars s.data from rfl]
  rw [trimChars_idem]

/-- JS truthiness of an optional string (`undefined`, `null` and `""` are
falsy). -/
def optTruthy (o : Option String) : Option String :=
  match o with
  | some s => if s = "" then none else some s
  | none => none

/-- A room participant as seen by the handlers. -/
structure Participant where
  identity : String
  name : Option String
  isAgent : Bool
deriving DecidableEq

/-- One transcription segment event (`startTime`/`firstReceivedTime` use the
JS convention that 0 is falsy/absent). -/
structure SegmentEvent where
  id : String
  text : String
  startTime : Nat
  firstReceivedTime : Nat
deriving DecidableEq

/-- Entry of `transcriptionSegmentsRef`. -/
structure SegmentRecord where
  text : String
  speaker : String
  timestamp : Nat
  isAgent : Bool
deriving DecidableEq

/-- Entry of `messagesBySegmentId` during the rebuild. -/
structure MsgRec where
  speaker : String
  text : String
  startTime : Nat
  isAgent : Bool
deriving DecidableEq

/-- A chat message of the displayed list. -/
structure Message where
  id : String
  speaker : String
  text : String
  timestamp : Nat
  isUser : Bool
deriving DecidableEq

/-- Entry of `participantDetailsMapRef`. -/
structure PersonDetails where
  backstory : String
  topic : String
  personality : String
deriving DecidableEq

/-- The frontend state touched by the transcription and data handlers:
the segment map, the participant name/details maps, the handoff timestamps,
the displayed messages, and the (per-session constant) user/local names. -/
structure FrontendState where
  transcriptionSegments : List (String × SegmentRecord)
  participantNameMap : List (String × String)
  participantDetailsMap : List (String × PersonDetails)
  handoffTimestamps : List (String × Nat)
  messages : List Message
  userName : String
  localName : Option String
  localIdentity : Option String
deriving DecidableEq

/-- `(participant as RemoteParticipant)?.isAgent ?? false`. -/
def segIsAgent (participant : Option Participant) : Bool :=
  match participant with
  | some p => p.isAgent
  | none => false

/-- `segment.startTime || segment.firstReceivedTime || Date.now()`. -/
def segTimestamp (e : SegmentEvent) (now : Nat) : Nat :=
  if e.startTime ≠ 0 then e.startTime
  else if e.firstReceivedTime ≠ 0 then e.firstReceivedTime
  else now

/-- Agent branch of the speaker-name computation: an already-tracked segment
keeps its original speaker name; a new segment uses the stored name (which a
handoff may have updated), falling back to `participant.name`,
`participant.identity`, then `"Agent"`, and the stored name is backfilled
from `participant.name` when absent. -/
def agentSpeaker (st : FrontendState) (participant : Option Participant)
    (segId : String) : String × List (String × String) :=
  match alistGet segId st.transcriptionSegments with
  | some existing => (existing.speaker, st.participantNameMap)
  | none =>
    let storedName :=
      match participant with
      | some p => optTruthy (alistGet p.identity st.participantNameMap)
      | none => none
    let nameMap :=
      match storedName, participant with
      | none, some p =>
        match optTruthy p.name with
        | some n => alistSet p.identity n st.participantNameMap
        | none => st.participantNameMap
      | _, _ => st.participantNameMap
    let speaker :=
      match storedName with
      | some n => n
      | none =>
        match participant with
        | some p =>
          match optTruthy p.name with
          | some n => n
          | none => if p.identity = "" then "Agent" else p.identity
        | none => "Agent"
    (speaker, nameMap)

/-- User branch of the speaker-name computation:
`userNameRef.current || localParticipant?.name || localParticipant?.identity
|| 'You'`. -/
def userSpeaker (st : FrontendState) : String :=
  if st.userName = "" then
    match optTruthy st.localName with
    | some n => n
    | none =>
      match optTruthy st.localIdentity with
      | some n => n
      | none => "You"
  else st.userName

/-- Speaker name and (possibly backfilled) name map for one segment. -/
def segSpeakerName (st : FrontendState) (participant : Option Participant)
    (e : SegmentEvent) : String × List (String × String) :=
  if segIsAgent participant then agentSpeaker st participant e.id
  else (userSpeaker st, st.participantNameMap)

/-- One step of the `messagesBySegmentId` rebuild fold: first occurrence of
an id creates the message, a later occurrence is a streaming update keeping
the original speaker and earliest timestamp while replacing the text. -/
def groupStep (acc : List (String × MsgRec)) (kv : String × SegmentRecord) :
    List (String × MsgRec) :=
  match alistGet kv.1 acc with
  | none =>
    alistSet kv.1
      { speaker := kv.2.speaker, text := trimStr kv.2.text,
        startTime := kv.2.timestamp, isAgent := kv.2.isAgent } acc
  | some ex =>
    alistSet kv.1
      { speaker := ex.speaker, text := trimStr kv.2.text,
        startTime := min ex.startTime kv.2.timestamp, isAgent := ex.isAgent } acc

/-- Rebuild the displayed message list from the segment map: sort segments by
timestamp (stable), group by segment id, convert to messages, sort by
timestamp again. -/
def rebuildMessages (segs : List (String × SegmentRecord)) : List Message :=
  insertionSort (fun a b => decide (a.timestamp ≤ b.timestamp))
    (((insertionSort (fun a b => decide (a.2.timestamp ≤ b.2.timestamp)) segs).foldl
        groupStep []).map
      (fun kv =>
        { id := kv.1, speaker := kv.2.speaker, text := kv.2.text,
          timestamp := kv.2.startTime, isUser := !kv.2.isAgent }))

/-- The `RoomEvent.TranscriptionReceived` handler for one segment: skip
empty or whitespace-only text, compute the speaker name (keeping the
original name of an already-tracked segment), store the segment, and rebuild
the displayed messages. -/
def processSegment (st : FrontendState) (participant : Option Participant)
    (e : SegmentEvent) (now : Nat) : FrontendState :=
  if e.text = "" ∨ trimStr e.text = "" then st
  else
    { st with
      transcriptionSegments :=
        alistSet e.id
          { text := e.text, speaker := (segSpeakerName st participant e).1,
            timestamp := segTimestamp e now, isAgent := segIsAgent participant }
          st.transcriptionSegments,
      participantNameMap := (segSpeakerName st participant e).2,
      messages :=
        rebuildMessages
          (alistSet e.id
            { text := e.text, speaker := (segSpeakerName st participant e).1,
              timestamp := segTimestamp e now, isAgent := segIsAgent participant }
            st.transcriptionSegments) }

/-- A `person_name` data message from the agent. -/
structure PersonNameMessage where
  name : String
  backstory : Option String
  topic : Option String
  personality : Option String
deriving DecidableEq

/-- The `RoomEvent.DataReceived` handler for a `person_name` message:
record the handoff timestamp when the display name changes, update the
stored display name, and store the persona details when all are present. -/
def processPersonName (st : FrontendState) (participant : Option Participant)
    (m : PersonNameMessage) (now : Nat) : FrontendState :=
  match participant with
  | none => st
  | some p =>
    if m.name = "" then st
    else
      { st with
        handoffTimestamps :=
          if alistGet p.identity st.participantNameMap ≠ some m.name then
            alistSet p.identity now st.handoffTimestamps
          else st.handoffTimestamps,
        participantNameMap := alistSet p.identity m.name st.participantNameMap,
        participantDetailsMap :=
          match optTruthy m.backstory, optTruthy m.topic, optTruthy m.personality with
          | some b, some t, some pe =>
            alistSet p.identity ⟨b, t, pe⟩ st.participantDetailsMap
          | _, _, _ => st.participantDetailsMap }

theorem agentSpeaker_existing (st : FrontendState) (participant : Option Participant)
    (segId : String) (ex : SegmentRecord)
    (hex : alistGet segId st.transcriptionSegments = some ex) :
    agentSpeaker st participant segId = (ex.speaker, st.participantNameMap) := by
  unfold agentSpeaker
  rw [hex]

theorem agentSpeaker_new (st : FrontendState) (p : Participant) (segId : String)
    (hnew : alistGet segId st.transcriptionSegments = none)
    (n : String) (hn : optTruthy (alistGet p.identity st.participantNameMap) = some n) :
    (agentSpeaker st (some p) segId).1 = n := by
  unfold agentSpeaker
  rw [hnew]
  simp [hn]

theorem groupFold_text (l : List (String × SegmentRecord)) :
    ∀ acc, (∀ s ∈ l, trimStr s.2.text ≠ "") →
      (∀ kv ∈ acc, kv.2.text ≠ "" ∧ trimStr kv.2.text = kv.2.text) →
      ∀ kv ∈ l.foldl groupStep acc,
        kv.2.text ≠ "" ∧ trimStr kv.2.text = kv.2.text := by
  induction l with
  | nil =>
    intro acc hl hacc kv hkv
    exact hacc kv hkv
  | cons s ss ih =>
    intro acc hl hacc kv hkv
    rw [List.foldl_cons] at hkv
    refine ih (groupStep acc s) (fun x hx => hl x (List.mem_cons_of_mem s hx)) ?_ kv hkv
    intro kv2 hkv2
    have hs : trimStr s.2.text ≠ "" := hl s (List.mem_cons_self s ss)
    unfold groupStep at hkv2
    cases hg : alistGet s.1 acc with
    | none =>
      rw [hg] at hkv2
      rcases mem_alistSet _ _ _ _ hkv2 with hEq | hmem
      · rw [hEq]
        exact ⟨hs, trimStr_idem _⟩
      · exact hacc kv2 hmem
    | some ex =>
      rw [hg] at hkv2
      rcases mem_alistSet _ _ _ _ hkv2 with hEq | hmem
      · rw [hEq]
        exact ⟨hs, trimStr_idem _⟩
      · exact hacc kv2 hmem

theorem rebuildMessages_text (segs : List (String × SegmentRecord))
    (h : ∀ s ∈ segs, trimStr s.2.text ≠ "") :
    ∀ m ∈ rebuildMessages segs, m.text ≠ "" ∧ trimStr m.text = m.text := by
  intro m hm
  unfold rebuildMessages at hm
  rw [mem_insertionSort] at hm
  rcases List.mem_map.mp hm with ⟨kv, hkv, hEq⟩
  have hsorted : ∀ s ∈ insertionSort
      (fun a b => decide (a.2.timestamp ≤ b.2.timestamp)) segs,
      trimStr s.2.text ≠ "" := by
    intro s hs
    exact h s ((mem_insertionSort _ _ _).mp hs)
  have hres := groupFold_text _ [] hsorted (by intro kv2 hkv2; simp at hkv2) kv hkv
  rw [← hEq]
  exact hres

/-- The segment-map invariant: every tracked segment has non-whitespace
text. -/
def SegInv (st : FrontendState) : Prop :=
  ∀ kv ∈ st.transcriptionSegments, trimStr kv.2.text ≠ ""

/-- C9 — In the transcription handler, an agent segment whose id is already
tracked keeps its originally recorded speaker name on every streaming update
(regardless of the current contents of the participant name map, i.e. even
after a persona handoff changed the stored display name), while an agent
segment first seen with a (truthy) stored name uses that current name. -/
theorem segment_speaker_stability (st : FrontendState) (p : Participant)
    (e : SegmentEvent) (now : Nat) (hagent : p.isAgent = true)
    (htext : ¬ (e.text = "" ∨ trimStr e.text = "")) :
    (∀ ex, alistGet e.id st.transcriptionSegments = some ex →
      ∃ rec, alistGet e.id
          (processSegment st (some p) e now).transcriptionSegments = some rec ∧
        rec.speaker = ex.speaker ∧ rec.text = e.text) ∧
    (alistGet e.id st.transcriptionSegments = none →
      ∀ n, optTruthy (alistGet p.identity st.participantNameMap) = some n →
        ∃ rec, alistGet e.id
            (processSegment st (some p) e now).transcriptionSegments = some rec ∧
          rec.speaker = n) := by
  have hia : segIsAgent (some p) = true := by
    simp [segIsAgent, hagent]
  have hseg : (processSegment st (some p) e now).transcriptionSegments =
      alistSet e.id
        { text := e.text, speaker := (segSpeakerName st (some p) e).1,
          timestamp := segTimestamp e now, isAgent := segIsAgent (some p) }
        st.transcriptionSegments := by
    unfold processSegment
    rw [if_neg htext]
  constructor
  · intro ex hex
    have hspk : (segSpeakerName st (some p) e).1 = ex.speaker := by
      unfold segSpeakerName
      rw [hia]
      simp [agentSpeaker_existing st (some p) e.id ex hex]
    refine ⟨{ text := e.text, speaker := (segSpeakerName st (some p) e).1,
              timestamp := segTimestamp e now, isAgent := segIsAgent (some p) },
            ?_, hspk, rfl⟩
    rw [hseg]
    exact alistGet_set_self _ _ _
  · intro hnew n hn
    have hspk : (segSpeakerName st (some p) e).1 = n := by
      unfold segSpeakerName
      rw [hia]
      simp [agentSpeaker_new st p e.id hnew n hn]
    refine ⟨{ text := e.text, speaker := (segSpeakerName st (some p) e).1,
              timestamp := segTimestamp e now, isAgent := segIsAgent (some p) },
            ?_, hspk⟩
    rw [hseg]
    exact alistGet_set_self _ _ _

/-- C10 — In the transcription handler, a segment with empty or
whitespace-only text is skipped and leaves the whole state unchanged; the
segment-map invariant (non-whitespace text) is preserved; and every message
produced into the displayed list has non-empty text equal to its own trim
(stored message text is trimmed). -/
theorem messages_nonempty_trimmed (st : FrontendState)
    (participant : Option Participant) (e : SegmentEvent) (now : Nat)
    (hinv : SegInv st) :
    (trimStr e.text = "" → processSegment st participant e now = st) ∧
    SegInv (processSegment st participant e now) ∧
    (trimStr e.text ≠ "" →
      ∀ m ∈ (processSegment st participant e now).messages,
        m.text ≠ "" ∧ trimStr m.text = m.text) := by
  by_cases hg : e.text = "" ∨ trimStr e.text = ""
  · have hskip : processSegment st participant e now = st := by
      unfold processSegment
      rw [if_pos hg]
    refine ⟨fun _ => hskip, by rw [hskip]; exact hinv, ?_⟩
    intro hne
    rcases hg with hg | hg
    · exfalso
      apply hne
      rw [hg]
      rfl
    · exact absurd hg hne
  · have hgt : trimStr e.text ≠ "" := fun hEq => hg (Or.inr hEq)
    have hseg : (processSegment st participant e now).transcriptionSegments =
        alistSet e.id
          { text := e.text, speaker := (segSpeakerName st participant e).1,
            timestamp := segTimestamp e now, isAgent := segIsAgent participant }
          st.transcriptionSegments := by
      unfold processSegment
      rw [if_neg hg]
    have hmsg : (processSegment st participant e now).messages =
        rebuildMessages
          (alistSet e.id
            { text := e.text, speaker := (segSpeakerName st participant e).1,
              timestamp := segTimestamp e now, isAgent := segIsAgent participant }
            st.transcriptionSegments) := by
      unfold processSegment
      rw [if_neg hg]
    have hinv' : ∀ kv ∈ alistSet e.id
        { text := e.text, speaker := (segSpeakerName st participant e).1,
          timestamp := segTimestamp e now, isAgent := segIsAgent participant }
        st.transcriptionSegments, trimStr kv.2.text ≠ "" := by
      intro kv hkv
      rcases mem_alistSet _ _ _ _ hkv with hEq | hmem
      · rw [hEq]
        exact hgt
      · exact hinv kv hmem
    refine ⟨fun hEq => absurd hEq hgt, ?_, ?_⟩
    · intro kv hkv
      rw [hseg] at hkv
      exact hinv' kv hkv
    · intro hne m hm
      rw [hmsg] at hm
      exact rebuildMessages_text _ hinv' m hm

/-- A demonstration agent participant. -/
def demoParticipant : Participant :=
  { identity := "agent", name := some "Skye Morales", isAgent := true }

/-- The initial frontend state of the demonstration. -/
def demoFrontend0 : FrontendState :=
  { transcriptionSegments := [], participantNameMap := [],
    participantDetailsMap := [], handoffTimestamps := [], messages := [],
    userName := "Sam", localName := none, localIdentity := some "user" }

/-- First arrival of segment seg1. -/
def demoEvent1 : SegmentEvent :=
  { id := "seg1", text := "hello there", startTime := 10, firstReceivedTime := 0 }

/-- A streaming update of segment seg1 arriving after the handoff. -/
def demoEvent1b : SegmentEvent :=
  { id := "seg1", text := "hello there everyone", startTime := 10,
    firstReceivedTime := 0 }

/-- Frontend state after processing seg1. -/
def demoFrontend1 : FrontendState :=
  processSegment demoFrontend0 (some demoParticipant) demoEvent1 5

/-- Frontend state after a persona handoff renamed the agent participant. -/
def demoFrontend2 : FrontendState :=
  processPersonName demoFrontend1 (some demoParticipant)
    { name := "Noah Reed", backstory := some "Latency optimization expert",
      topic := some "latency", personality := some "Professional" } 20

theorem segment_speaker_stability_witness :
    alistGet "agent" demoFrontend2.participantNameMap = some "Noah Reed" ∧
    ∃ rec, alistGet "seg1"
        (processSegment demoFrontend2 (some demoParticipant)
          demoEvent1b 30).transcriptionSegments = some rec ∧
      rec.speaker = "Skye Morales" := by
  refine ⟨by rfl, ?_⟩
  obtain ⟨rec, h1, h2, h3⟩ :=
    (segment_speaker_stability demoFrontend2 demoParticipant demoEvent1b 30
        (by rfl) (by decide)).1
      { text := "hello there", speaker := "Skye Morales", timestamp := 10,
        isAgent := true } (by rfl)
  exact ⟨rec, h1, h2⟩

theorem messages_nonempty_trimmed_witness :
    processSegment demoFrontend0 (some demoParticipant)
      { id := "seg0", text := "   ", startTime := 0, firstReceivedTime := 0 } 5 =
      demoFrontend0 ∧
    ∀ m ∈ demoFrontend1.messages, m.text ≠ "" ∧ trimStr m.text = m.text := by
  constructor
  · exact (messages_nonempty_trimmed demoFrontend0 (some demoParticipant)
      { id := "seg0", text := "   ", startTime := 0, firstReceivedTime := 0 } 5
      (by intro kv hkv; simp [demoFrontend0] at hkv)).1 (by rfl)
  · exact (messages_nonempty_trimmed demoFrontend0 (some demoParticipant)
      demoEvent1 5 (by intro kv hkv; simp [demoFrontend0] at hkv)).2.2 (by decide)
